import Mathlib

/-!
Verification of the quorum sharded-blockchain core (Go sources) against its
natural-language specification.  Go maps are modelled as association lists
with unique keys (`AList`), Go `nil`-pointer dereferences and index panics as
`Option.none`, and machine integers as `Nat`/`Int` with explicit wrap-around
where the source can overflow.
-/

set_option maxRecDepth 4000

namespace Quorum

/-- Contract addresses (20-byte values, modelled as naturals). -/
abbrev Addr := Nat

/-- Storage slots / 32-byte hashes used as lock keys. -/
abbrev Key := Nat

/-- Association list standing in for a Go `map`.  All states built by the
embedded operations keep keys unique, mirroring Go map semantics. -/
abbrev AList (α β : Type) := List (α × β)

/-- Go map lookup `v, ok := m[k]` returning `none` when the key is absent. -/
def lookupA {α β : Type} [DecidableEq α] : AList α β → α → Option β
  | [], _ => none
  | (x, y) :: rest, a => if x = a then some y else lookupA rest a

/-- Go map lookup with the zero value as default (`m[k]` in value position). -/
def lookupD {α β : Type} [DecidableEq α] (m : AList α β) (a : α) (d : β) : β :=
  (lookupA m a).getD d

/-- Go map update `m[k] = v`: overwrite the existing binding or append. -/
def insertA {α β : Type} [DecidableEq α] : AList α β → α → β → AList α β
  | [], a, b => [(a, b)]
  | (x, y) :: rest, a, b => if x = a then (a, b) :: rest else (x, y) :: insertA rest a b

/-- Go `delete(m, k)`: drop every binding of `k` (maps hold at most one). -/
def eraseA {α β : Type} [DecidableEq α] (m : AList α β) (a : α) : AList α β :=
  m.filter (fun p => p.1 ≠ a)

theorem lookupA_insertA_self {α β : Type} [DecidableEq α] (m : AList α β) (a : α) (b : β) :
    lookupA (insertA m a b) a = some b := by
  induction m with
  | nil => simp [insertA, lookupA]
  | cons hd tl ih =>
    by_cases h : hd.1 = a
    · simp [insertA, h, lookupA]
    · simp [insertA, h, lookupA, ih]

theorem lookupA_insertA_ne {α β : Type} [DecidableEq α] (m : AList α β) (a c : α) (b : β)
    (h : a ≠ c) : lookupA (insertA m a b) c = lookupA m c := by
  induction m with
  | nil => simp [insertA, lookupA, h]
  | cons hd tl ih =>
    by_cases hx : hd.1 = a
    · have hcn : hd.1 ≠ c := by rw [hx]; exact h
      simp [insertA, hx, lookupA, h, hcn]
    · simp [insertA, hx, lookupA, ih]

theorem lookupA_mem {α β : Type} [DecidableEq α] {m : AList α β} {a : α} {b : β}
    (h : lookupA m a = some b) : (a, b) ∈ m := by
  induction m with
  | nil => simp [lookupA] at h
  | cons hd tl ih =>
    cases hd with
    | mk x y =>
      by_cases hx : x = a
      · subst hx
        simp only [lookupA, eq_self_iff_true, if_true, Option.some.injEq] at h
        subst h
        exact List.mem_cons_self _ _
      · simp only [lookupA, if_neg hx] at h
        exact List.mem_cons_of_mem _ (ih h)

theorem lookupA_eraseA_self {α β : Type} [DecidableEq α] (m : AList α β) (a : α) :
    lookupA (eraseA m a) a = none := by
  induction m with
  | nil => simp [eraseA, lookupA]
  | cons hd tl ih =>
    by_cases hx : hd.1 = a
    · simpa [eraseA, hx] using ih
    · simpa [eraseA, hx, lookupA] using ih

theorem lookupA_eraseA_none {α β : Type} [DecidableEq α] {m : AList α β} {a : α} (c : α)
    (h : lookupA m a = none) : lookupA (eraseA m c) a = none := by
  induction m with
  | nil => simp [eraseA, lookupA]
  | cons hd tl ih =>
    by_cases hx : hd.1 = a
    · simp [lookupA, hx] at h
    · by_cases hc : hd.1 = c
      · simp [lookupA, hx] at h
        simpa [eraseA, hc] using ih h
      · simp [lookupA, hx] at h
        simpa [eraseA, hc, lookupA, hx] using ih h

/-! ## Lock manager (worker `checkTxStatus` / `updateLockStatus`, miner worker file)

The worker keeps the shared global lock table `gLocked.Locks`, the tentative
per-attempt table `cLocked`, and the `cUnlocked` map of contracts whose shard
has a pending accepted state commit.  All maps are keyed by contract address;
the per-contract value maps a storage slot to `-1` (write-locked) or a
non-negative read count. -/

/-- Read/write key set of one contract inside a cross-shard transaction
(`types.CKeys`): `wkeys` lists the keys that are written (each written key is
also listed in `keys` by the byte-level decoder `GetRWSet`). -/
structure CKeys where
  addr : Addr
  keys : List Key
  wkeys : List Key
  deriving DecidableEq, Repr

/-- Lock-relevant worker state during one block-assembly attempt. -/
structure WState where
  gLocked : AList Addr (AList Key Int)
  cLocked : AList Addr (AList Key Int)
  cUnlocked : List Addr
  deriving Repr

/-- `BlockChain.CheckGLock`: whether some requested key of `addr` conflicts
with the global lock table (requested write against any held lock, or any
request against a held write).  The source dereferences
`bc.gLocked.Locks[addr]` without an ok-check; all call sites guard on the
address being present, so the default `[]` is never exercised. -/
def checkGLock (g : AList Addr (AList Key Int)) (addr : Addr)
    (addrKeys : AList Key Bool) : Bool :=
  let gLockedKeys := (lookupA g addr).getD []
  addrKeys.any (fun kv =>
    match lookupA gLockedKeys kv.1 with
    | some gval => kv.2 || decide (gval < 0)
    | none => false)

/-- `worker.checkLockStatus`: true iff some key of `addr` in `addrKeys`
(slot ↦ write-flag) conflicts with the tentative or global lock tables. -/
def checkLockStatus (st : WState) (addr : Addr) (addrKeys : AList Key Bool) : Bool :=
  let galok := (lookupA st.gLocked addr).isSome
  let calok := (lookupA st.cLocked addr).isSome
  if !galok && !calok then
    false
  else
    let cLockedKeys := (lookupA st.cLocked addr).getD []
    let cHit := calok && addrKeys.any (fun kv =>
      match lookupA cLockedKeys kv.1 with
      | some cval => decide (cval < 0) || kv.2
      | none => false)
    if cHit then
      true
    else if !(st.cUnlocked.contains addr) && galok then
      checkGLock st.gLocked addr addrKeys
    else
      false

/-- The `lockMap` built by `worker.checkTxStatus` for one contract: every
requested key maps to `false`, then every written key is overwritten to
`true`. -/
def buildLockMap (ck : CKeys) : AList Key Bool :=
  let m := ck.keys.foldl (fun m k => insertA m k false) []
  ck.wkeys.foldl (fun m k => insertA m k true) m

/-- `worker.checkTxStatus`: a cross-shard transaction (its per-shard key sets
`allKeys`) is eligible iff no contract's key set conflicts under
`checkLockStatus`. -/
def checkTxStatus (st : WState) (allKeys : List (Nat × List CKeys)) : Bool :=
  !(allKeys.any (fun p => p.2.any (fun ck => checkLockStatus st ck.addr (buildLockMap ck))))

/-- One key of `updateLockStatus`'s read loop: initialise an absent slot to
`0`, then increment. -/
def bumpKey (m : AList Key Int) (k : Key) : AList Key Int :=
  match lookupA m k with
  | some v => insertA m k (v + 1)
  | none => insertA m k (0 + 1)

/-- Per-contract part of `worker.updateLockStatus`: bump the read count of
every requested key, then set every written key to `-1`. -/
def updateCLockAddr (m : AList Key Int) (ck : CKeys) : AList Key Int :=
  let m1 := ck.keys.foldl bumpKey m
  ck.wkeys.foldl (fun m k => insertA m k (-1)) m1

/-- `worker.updateLockStatus`: tentatively admit the key sets of an accepted
cross-shard transaction into `cLocked`. -/
def updateLockStatus (st : WState) (allKeys : List (Nat × List CKeys)) : WState :=
  { st with cLocked := allKeys.foldl (fun c p => p.2.foldl (fun c ck =>
      insertA c ck.addr (updateCLockAddr ((lookupA c ck.addr).getD []) ck)) c) st.cLocked }

theorem lookupA_foldl_const {β : Type} (ks : List Key) (m : AList Key β) (v : β) (k : Key) :
    lookupA (ks.foldl (fun m k => insertA m k v) m) k
      = if k ∈ ks then some v else lookupA m k := by
  induction ks generalizing m with
  | nil => simp
  | cons k0 rest ih =>
    simp only [List.foldl_cons]
    rw [ih]
    by_cases hr : k ∈ rest
    · simp [hr, List.mem_cons]
    · by_cases h0 : k0 = k
      · simp [hr, h0, List.mem_cons, lookupA_insertA_self]
      · simp [hr, List.mem_cons, h0, Ne.symm h0, lookupA_insertA_ne _ _ _ _ h0]

theorem buildLockMap_lookup (ck : CKeys) (k : Key) :
    lookupA (buildLockMap ck) k
      = if k ∈ ck.wkeys then some true
        else if k ∈ ck.keys then some false else none := by
  unfold buildLockMap
  rw [lookupA_foldl_const, lookupA_foldl_const]
  by_cases hw : k ∈ ck.wkeys <;> by_cases hk : k ∈ ck.keys <;> simp [hw, hk, lookupA]

theorem checkLockStatus_of_writeLocked (st : WState) (a : Addr) (k : Key)
    (m : AList Key Int) (addrKeys : AList Key Bool) (b : Bool)
    (hm : lookupA st.cLocked a = some m) (hk : lookupA m k = some (-1))
    (hin : (k, b) ∈ addrKeys) :
    checkLockStatus st a addrKeys = true := by
  unfold checkLockStatus
  have hcal : (lookupA st.cLocked a).isSome = true := by rw [hm]; rfl
  have hany : addrKeys.any (fun kv =>
      match lookupA ((lookupA st.cLocked a).getD []) kv.1 with
      | some cval => decide (cval < 0) || kv.2
      | none => false) = true := by
    rw [List.any_eq_true]
    refine ⟨(k, b), hin, ?_⟩
    rw [hm]
    simp [hk]
  simp [hcal, hany]

/-- C1: once `updateLockStatus` has write-locked `(a, k)` in the tentative
table (entry `-1`), every subsequent `checkTxStatus` whose key sets mention
`(a, k)` — read or write — reports a conflict, so the requesting cross-shard
transaction is rejected. -/
theorem c1_tentative_write_blocks (st : WState) (a : Addr) (k : Key)
    (m : AList Key Int) (allKeys : List (Nat × List CKeys))
    (hm : lookupA st.cLocked a = some m) (hk : lookupA m k = some (-1))
    (hin : ∃ p ∈ allKeys, ∃ ck ∈ p.2, ck.addr = a ∧ (k ∈ ck.keys ∨ k ∈ ck.wkeys)) :
    checkTxStatus st allKeys = false := by
  obtain ⟨p, hp, ck, hck, haddr, hkin⟩ := hin
  unfold checkTxStatus
  simp only [Bool.not_eq_false', List.any_eq_true]
  refine ⟨p, hp, ck, hck, ?_⟩
  subst haddr
  have hlk : ∃ b, lookupA (buildLockMap ck) k = some b := by
    rw [buildLockMap_lookup]
    rcases hkin with hkk | hkw
    · by_cases hw : k ∈ ck.wkeys
      · exact ⟨true, by simp [hw]⟩
      · exact ⟨false, by simp [hw, hkk]⟩
    · exact ⟨true, by simp [hkw]⟩
  obtain ⟨b, hb⟩ := hlk
  exact checkLockStatus_of_writeLocked st ck.addr k m (buildLockMap ck) b hm hk
    (lookupA_mem hb)

/-- Empty lock state at the start of a block-assembly attempt. -/
def emptyWState : WState := ⟨[], [], []⟩

/-- Key set of a transaction writing slot `0x01` of contract `A = 10` on
shard 2. -/
def t1Keys : List (Nat × List CKeys) := [(2, [⟨10, [1], [1]⟩])]

/-- Key set of a transaction reading slot `0x01` of contract `A = 10`. -/
def t2Keys : List (Nat × List CKeys) := [(2, [⟨10, [1], []⟩])]

/-- Witness for C1, the spec's admission-conflict scenario: from empty tables
the writer is admissible and admitted (its tentative entry becomes `-1`), and
the subsequent reader is rejected by `c1_tentative_write_blocks`. -/
theorem c1_witness :
    checkTxStatus emptyWState t1Keys = true ∧
    lookupA (updateLockStatus emptyWState t1Keys).cLocked 10 = some [(1, -1)] ∧
    checkTxStatus (updateLockStatus emptyWState t1Keys) t2Keys = false := by
  refine ⟨by decide, by decide, ?_⟩
  exact c1_tentative_write_blocks (updateLockStatus emptyWState t1Keys) 10 1
    [(1, -1)] t2Keys (by decide) (by decide)
    ⟨(2, [⟨10, [1], []⟩]), by decide, ⟨10, [1], []⟩, by decide, rfl, Or.inl (by decide)⟩

/-! ## Foreign-data cache (`types.DataCache`) and the cross-shard EVM
transfer hooks (`core.CanTransfer` / `core.Transfer`)

`nil`-pointer dereferences and out-of-range indexing in the Go source are
modelled as `Option.none`.  Go `uint64` arithmetic wraps modulo `2^64`;
`big.Int` state balances are modelled as `Int`. -/

/-- Latest commitment of a shard (`types.Commitment`); only the numeric
fields matter for the embedded logic, the roots/hashes are opaque naturals. -/
structure Commitment where
  shard : Nat
  blockNum : Nat
  refNum : Nat
  stateRoot : Nat
  bHash : Nat
  deriving DecidableEq, Repr

/-- Received remote account data for one contract (`types.CData`). -/
structure CData where
  addr : Addr
  balance : Nat
  nonce : Nat
  data : AList Key Key
  deriving DecidableEq, Repr

/-- Gossip payload for one contract (`types.KeyVal`): values are listed in
the order of the requested keys. -/
structure KeyVal where
  addr : Addr
  balance : Nat
  nonce : Nat
  data : List Key
  deriving DecidableEq, Repr

/-- Foreign-data cache entry for one reference height (`types.DataCache`). -/
structure DataCache where
  refNum : Nat
  status : Bool
  required : Nat
  received : Nat
  keyval : AList Addr (List Key)
  addrToShard : AList Addr Nat
  shardStatus : AList Nat Bool
  commits : AList Nat (Option Commitment)
  values : AList Addr CData
  deriving DecidableEq, Repr

/-- `types.NewDataCache`. -/
def NewDataCache (bnum : Nat) (status : Bool) : DataCache :=
  { refNum := bnum, status := status, required := 0, received := 0,
    keyval := [], addrToShard := [], shardStatus := [], commits := [], values := [] }

def u64Mod : Nat := 2 ^ 64

/-- Go `uint64` addition. -/
def add64 (a b : Nat) : Nat := (a + b) % u64Mod

/-- Go `uint64` subtraction (wraps on underflow). -/
def sub64 (a b : Nat) : Nat := (a % u64Mod + (u64Mod - b % u64Mod)) % u64Mod

/-- Go `big.Int.Uint64` on a state balance (defined here for non-negative
values, the only ones the embedded paths produce). -/
def intToU64 (i : Int) : Nat := i.toNat % u64Mod

/-- `core.CanTransfer`: with a foreign-data cache present, an address mapped
to a remote shard draws its balance from `values` — dereferenced without a
nil check, hence `none` when the entry is missing — an address mapped to the
local shard uses the state balance, and an unmapped address yields `false`. -/
def canTransfer (dc : Option DataCache) (bshard : Nat) (dbBal : Addr → Int)
    (addr : Addr) (amount : Nat) : Option Bool :=
  match dc with
  | some d =>
    match lookupA d.addrToShard addr with
    | some shard =>
      if shard ≠ bshard then
        match lookupA d.values addr with
        | some cd => some (decide ((amount : Int) ≤ (cd.balance : Int)))
        | none => none
      else
        some (decide ((amount : Int) ≤ dbBal addr))
    | none => some false
  | none => some (decide ((amount : Int) ≤ dbBal addr))

/-- Pointwise function update, standing in for a `StateDB` balance write. -/
def updF (f : Addr → Int) (a : Addr) (v : Int) : Addr → Int :=
  fun x => if x = a then v else f x

/-- Fresh `CData` copied from cached remote values (`Transfer`'s `vals`
branch). -/
def cdataFromVals (a : Addr) (vals : CData) : CData :=
  { addr := a, balance := vals.balance, nonce := vals.nonce, data := [] }

/-- Fresh `CData` copied from the local state database (`Transfer`'s
`vals == nil` branch — the source always reads the *recipient*'s account
here). -/
def cdataFromDb (a : Addr) (dbBal : Addr → Int) (dbNonce : Addr → Nat) : CData :=
  { addr := a, balance := intToU64 (dbBal a), nonce := dbNonce a, data := [] }

/-- Recipient half of `core.Transfer` (runs after the sender half). -/
def transferRecipient (bshard : Nat) (d : DataCache) (dcCh : AList Addr CData)
    (dbBal : Addr → Int) (dbNonce : Addr → Nat) (recipient : Addr) (amount : Nat) :
    Option (AList Addr CData × (Addr → Int)) :=
  let rshard := lookupD d.addrToShard recipient 0
  if rshard ≠ bshard then
    let dcCh1 :=
      if (lookupA dcCh recipient).isSome then dcCh
      else
        match lookupA d.values recipient with
        | some vals => insertA dcCh recipient (cdataFromVals recipient vals)
        | none => insertA dcCh recipient (cdataFromDb recipient dbBal dbNonce)
    match lookupA dcCh1 recipient with
    | some cd =>
      some (insertA dcCh1 recipient { cd with balance := add64 cd.balance amount }, dbBal)
    | none => none
  else
    some (dcCh, updF dbBal recipient (dbBal recipient + (amount : Int)))

/-- `core.Transfer`.  With a cache present, an address whose shard (zero
default for unmapped addresses) differs from the block's shard is settled in
the per-execution `dcChanges` map.  The sender branch with a missing
`values[sender]` entry initialises `dcChanges[recipient]` instead of
`dcChanges[sender]` (as the source does) and then dereferences the still
missing sender entry — modelled as `none`. -/
def transfer (bshard : Nat) (dc : Option DataCache) (dcCh : AList Addr CData)
    (dbBal : Addr → Int) (dbNonce : Addr → Nat) (sender recipient : Addr)
    (amount : Nat) : Option (AList Addr CData × (Addr → Int)) :=
  match dc with
  | some d =>
    let sshard := lookupD d.addrToShard sender 0
    if sshard ≠ bshard then
      let dcCh1 :=
        if (lookupA dcCh sender).isSome then dcCh
        else
          match lookupA d.values sender with
          | some vals => insertA dcCh sender (cdataFromVals sender vals)
          | none => insertA dcCh recipient (cdataFromDb recipient dbBal dbNonce)
      match lookupA dcCh1 sender with
      | some cd =>
        transferRecipient bshard d
          (insertA dcCh1 sender { cd with balance := sub64 cd.balance amount })
          dbBal dbNonce recipient amount
      | none => none
    else
      transferRecipient bshard d dcCh
        (updF dbBal sender (dbBal sender - (amount : Int))) dbNonce recipient amount
  | none =>
    some (dcCh, updF (updF dbBal sender (dbBal sender - (amount : Int)))
      recipient ((updF dbBal sender (dbBal sender - (amount : Int))) recipient + (amount : Int)))

/-- Cache for the C7 failing input: contract `10` belongs to remote shard 2,
contract `20` to the local shard 1, and no remote values have arrived. -/
def c7Cache : DataCache :=
  { refNum := 5, status := false, required := 1, received := 0,
    keyval := [(10, [1])], addrToShard := [(10, 2), (20, 1)],
    shardStatus := [(2, false)], commits := [], values := [] }

/-- C7 (code bug): with the cache mapping address `10` to remote shard 2 and
no `values[10]` entry, `CanTransfer` dereferences the missing entry and
`Transfer` (sender `10`) initialises `dcChanges[recipient]` instead of the
sender and then dereferences the missing sender entry; both fail instead of
treating the address as a fresh zero-balance account. -/
theorem c7_missing_values_fails :
    canTransfer (some c7Cache) 1 (fun _ => 0) 10 0 = none ∧
    transfer 1 (some c7Cache) [] (fun _ => 0) (fun _ => 0) 10 20 0 = none := by
  constructor
  · rfl
  · rfl

/-- C10: with a foreign-data cache present, `CanTransfer` returns `false`
for every address absent from the cache's address-to-shard map, whatever the
local balance and the requested amount. -/
theorem c10_unmapped_never_source (d : DataCache) (bshard : Nat) (dbBal : Addr → Int)
    (addr : Addr) (amount : Nat) (h : lookupA d.addrToShard addr = none) :
    canTransfer (some d) bshard dbBal addr amount = some false := by
  simp only [canTransfer, h]

/-- Witness for C10: address `99` is unmapped in the C7 cache, so it cannot
fund a transfer even with a huge local balance and a tiny amount. -/
theorem c10_witness :
    canTransfer (some c7Cache) 1 (fun _ => (1000000 : Int)) 99 5 = some false :=
  c10_unmapped_never_source c7Cache 1 (fun _ => (1000000 : Int)) 99 5 rfl

/-! ## `DataCache.AddData` and `DataCache.InitKeys` (claim C6) -/

/-- One contract of `AddData`'s value loop: pair the received values with the
requested keys.  The source dereferences `dc.Keyval[caddr]` without a nil
check and indexes `keys[i]` for every `i < len(data)`; both panics are
modelled as `none`. -/
def addVal (values : AList Addr CData) (keyval : AList Addr (List Key)) (v : KeyVal) :
    Option (AList Addr CData) :=
  match lookupA keyval v.addr with
  | none => none
  | some keys =>
    if v.data.length ≤ keys.length then
      some (insertA values v.addr
        { addr := v.addr, balance := v.balance, nonce := v.nonce,
          data := ((keys.take v.data.length).zip v.data).foldl
            (fun m p => insertA m p.1 p.2) [] })
    else
      none

/-- `AddData`'s loop over the received contracts. -/
def addDataVals : List KeyVal → AList Addr CData → AList Addr (List Key) →
    Option (AList Addr CData)
  | [], values, _ => some values
  | v :: rest, values, keyval =>
    match addVal values keyval v with
    | none => none
    | some values1 => addDataVals rest values1 keyval

/-- `DataCache.AddData`: ignore the batch if the shard already reported or
the batch is empty; otherwise store the values, mark the shard, bump
`received`, and flip `status` when `received == required`. -/
def AddData (dc : DataCache) (shard : Nat) (vals : List KeyVal) : Option DataCache :=
  if !(lookupD dc.shardStatus shard false) && decide (0 < vals.length) then
    match addDataVals vals dc.values dc.keyval with
    | none => none
    | some values1 =>
      some { dc with
        values := values1,
        shardStatus := insertA dc.shardStatus shard true,
        received := dc.received + 1,
        status := if dc.received + 1 = dc.required then true else dc.status }
  else
    some dc

/-- A pending cross-shard transaction as consumed by `InitKeys`
(`types.CrossTx`): the participant shards and the per-shard contract key
sets. -/
structure CrossTxM where
  shards : List Nat
  allContracts : List (Nat × List CKeys)
  deriving DecidableEq, Repr

/-- `InitKeys`'s first-encounter handling of a shard: the local shard is
marked satisfied, a remote shard bumps `required` and records its latest
commitment (`Commitments.GetCommit`, which may be absent). -/
def initShardEntry (dc : DataCache) (myshard shard : Nat)
    (commits : AList Nat Commitment) : DataCache :=
  match lookupA dc.shardStatus shard with
  | some _ => dc
  | none =>
    if shard = myshard then
      { dc with shardStatus := insertA dc.shardStatus shard true }
    else
      { dc with required := dc.required + 1,
                shardStatus := insertA dc.shardStatus shard false,
                commits := insertA dc.commits shard (lookupA commits shard) }

/-- `InitKeys`'s per-contract registration: a fresh contract is mapped to its
shard with exactly its requested keys; a known contract (its `Keyval` entry
always exists alongside the `AddrToShard` one) has the keys appended
(`CKeys.AddKey`). -/
def initContract (dc : DataCache) (shard : Nat) (ck : CKeys) : DataCache :=
  match lookupA dc.addrToShard ck.addr with
  | some _ =>
    { dc with
      keyval := insertA dc.keyval ck.addr (((lookupA dc.keyval ck.addr).getD []) ++ ck.keys) }
  | none =>
    { dc with
      addrToShard := insertA dc.addrToShard ck.addr shard,
      keyval := insertA dc.keyval ck.addr ck.keys }

/-- One `(shard, contracts)` group of a cross-shard transaction inside
`InitKeys`. -/
def initCtxShard (myshard : Nat) (commits : AList Nat Commitment) (dc : DataCache)
    (p : Nat × List CKeys) : DataCache :=
  p.2.foldl (fun dc ck => initContract dc p.1 ck) (initShardEntry dc myshard p.1 commits)

/-- One pending cross-shard transaction inside `InitKeys`: processed only
when it involves `myshard`. -/
def initCtx (myshard : Nat) (commits : AList Nat Commitment) (dc : DataCache)
    (ctx : CrossTxM) : DataCache :=
  if myshard ∈ ctx.shards then ctx.allContracts.foldl (initCtxShard myshard commits) dc
  else dc

/-- `DataCache.InitKeys`: reset the counters, register the union of remote
read/write sets, and report (and record) readiness iff nothing remains to
fetch. -/
def InitKeys (dc : DataCache) (myshard : Nat) (ctxs : List CrossTxM)
    (commits : AList Nat Commitment) : DataCache × Bool :=
  let dc2 := ctxs.foldl (initCtx myshard commits) { dc with received := 0, required := 0 }
  if dc2.received = dc2.required then ({ dc2 with status := true }, true)
  else (dc2, false)

/-- A mutation of one foreign-data cache entry: `InitKeys` (reference-block
parsing) or `AddData` (gossip). -/
inductive CacheOp where
  | init (myshard : Nat) (ctxs : List CrossTxM) (commits : AList Nat Commitment)
  | add (shard : Nat) (vals : List KeyVal)
  deriving DecidableEq, Repr

def applyOp (dc : DataCache) : CacheOp → Option DataCache
  | .init myshard ctxs commits => some (InitKeys dc myshard ctxs commits).1
  | .add shard vals => AddData dc shard vals

def applyOps : DataCache → List CacheOp → Option DataCache
  | dc, [] => some dc
  | dc, op :: ops =>
    match applyOp dc op with
    | none => none
    | some dc1 => applyOps dc1 ops

/-- The reference block at height 5 carries one cross-shard transaction for
shards 1 and 2 reading and writing slot 1 of contract 10 on shard 2. -/
def c6Ctx : CrossTxM := ⟨[1, 2], [(2, [⟨10, [1], [1]⟩])]⟩

/-- A gossip batch delivering slot 1 of contract 10. -/
def c6Val : KeyVal := ⟨10, 50, 0, [7]⟩

/-- Operation sequence refuting the C6 equivalence: after `InitKeys`
(required = 1), a batch attributed to the unexpected shard 9 flips `ready`,
and the genuine batch from shard 2 then overshoots `received` to 2. -/
def c6Seq : List CacheOp :=
  [.init 1 [c6Ctx] [], .add 9 [c6Val], .add 2 [c6Val]]

def c6Final : DataCache := (applyOps (NewDataCache 5 false) c6Seq).getD (NewDataCache 0 false)

/-- C6 counterexample: a legal `InitKeys; AddData; AddData` sequence (the
second batch names a shard that was never required) ends with `ready = true`
while `received = 2 ≠ 1 = required`, refuting `ready ⇔ received = required`. -/
theorem c6_counterexample :
    (applyOps (NewDataCache 5 false) c6Seq).isSome = true ∧
    c6Final.status = true ∧ c6Final.received = 2 ∧ c6Final.required = 1 := by
  refine ⟨rfl, rfl, rfl, rfl⟩

theorem initShardEntry_status (dc : DataCache) (myshard shard : Nat)
    (commits : AList Nat Commitment) :
    (initShardEntry dc myshard shard commits).status = dc.status := by
  unfold initShardEntry
  split
  · rfl
  · split <;> rfl

theorem initContract_status (dc : DataCache) (shard : Nat) (ck : CKeys) :
    (initContract dc shard ck).status = dc.status := by
  unfold initContract
  split <;> rfl

theorem foldl_status_pres {α : Type} (f : DataCache → α → DataCache)
    (hf : ∀ dc a, (f dc a).status = dc.status) (l : List α) (dc : DataCache) :
    (l.foldl f dc).status = dc.status := by
  induction l generalizing dc with
  | nil => rfl
  | cons a as ih => rw [List.foldl_cons, ih, hf]

theorem initCtx_status (myshard : Nat) (commits : AList Nat Commitment)
    (dc : DataCache) (ctx : CrossTxM) :
    (initCtx myshard commits dc ctx).status = dc.status := by
  unfold initCtx
  split
  · refine foldl_status_pres _ (fun dc p => ?_) _ _
    unfold initCtxShard
    rw [foldl_status_pres _ (fun dc ck => initContract_status dc p.1 ck),
      initShardEntry_status]
  · rfl

theorem applyOp_status_mono (dc : DataCache) (op : CacheOp) (dc' : DataCache)
    (h : applyOp dc op = some dc') (hs : dc.status = true) : dc'.status = true := by
  cases op with
  | init myshard ctxs commits =>
    simp only [applyOp, Option.some.injEq] at h
    subst h
    simp only [InitKeys]
    have hfold : (ctxs.foldl (initCtx myshard commits)
        { dc with received := 0, required := 0 }).status = dc.status :=
      foldl_status_pres _ (fun dc ctx => initCtx_status myshard commits dc ctx) _ _
    split
    · rfl
    · simpa [hfold] using hs
  | add shard vals =>
    simp only [applyOp, AddData] at h
    split at h
    · split at h
      · exact absurd h (by simp)
      · simp only [Option.some.injEq] at h
        subst h
        simp only
        split
        · rfl
        · exact hs
    · simp only [Option.some.injEq] at h
      subst h
      exact hs

/-- The conditional readiness invariant: whenever the counters agree, the
entry is marked ready. -/
def ReadyInv (dc : DataCache) : Prop := dc.received = dc.required → dc.status = true

theorem applyOp_init_readyInv (dc : DataCache) (myshard : Nat) (ctxs : List CrossTxM)
    (commits : AList Nat Commitment) :
    ReadyInv (InitKeys dc myshard ctxs commits).1 := by
  simp only [InitKeys]
  split
  · intro _
    rfl
  · intro hrr
    next h => exact absurd hrr h

theorem applyOp_readyInv (dc : DataCache) (op : CacheOp) (dc' : DataCache)
    (h : applyOp dc op = some dc') (hinv : ReadyInv dc) : ReadyInv dc' := by
  cases op with
  | init myshard ctxs commits =>
    simp only [applyOp, Option.some.injEq] at h
    subst h
    exact applyOp_init_readyInv dc myshard ctxs commits
  | add shard vals =>
    simp only [applyOp, AddData] at h
    split at h
    · split at h
      · exact absurd h (by simp)
      · simp only [Option.some.injEq] at h
        subst h
        intro hrr
        simp only at hrr ⊢
        split
        · rfl
        · next hne => exact absurd hrr hne
    · simp only [Option.some.injEq] at h
      subst h
      exact hinv

theorem applyOps_status_mono (dc : DataCache) (ops : List CacheOp) (dc' : DataCache)
    (h : applyOps dc ops = some dc') (hs : dc.status = true) : dc'.status = true := by
  induction ops generalizing dc with
  | nil =>
    simp only [applyOps, Option.some.injEq] at h
    subst h
    exact hs
  | cons op rest ih =>
    simp only [applyOps] at h
    split at h
    · exact absurd h (by simp)
    · next dc1 h1 => exact ih dc1 h (applyOp_status_mono dc op dc1 h1 hs)

theorem applyOps_readyInv (dc : DataCache) (ops : List CacheOp) (dc' : DataCache)
    (h : applyOps dc ops = some dc') (hinv : ReadyInv dc) : ReadyInv dc' := by
  induction ops generalizing dc with
  | nil =>
    simp only [applyOps, Option.some.injEq] at h
    subst h
    exact hinv
  | cons op rest ih =>
    simp only [applyOps] at h
    split at h
    · exact absurd h (by simp)
    · next dc1 h1 => exact ih dc1 h (applyOp_readyInv dc op dc1 h1 hinv)

/-- C6 amended: across every successful sequence of `InitKeys`/`AddData`
operations, `ready` is monotone (once true, never false again); and for every
sequence that starts with an `InitKeys` — as every real entry's life does —
each later state satisfies `received = required → ready`.  The converse
implication fails (see the counterexample): an `AddData` batch from a shard
that was never counted in `required` can overshoot `received` while `ready`
stays true. -/
theorem c6_ready_monotone_and_conditional :
    (∀ dc ops dc', applyOps dc ops = some dc' → dc.status = true → dc'.status = true) ∧
    (∀ dc myshard ctxs commits ops dc',
      applyOps dc (CacheOp.init myshard ctxs commits :: ops) = some dc' →
      dc'.received = dc'.required → dc'.status = true) := by
  refine ⟨applyOps_status_mono, ?_⟩
  intro dc myshard ctxs commits ops dc' h
  simp only [applyOps, applyOp] at h
  exact applyOps_readyInv _ ops dc' h (applyOp_init_readyInv dc myshard ctxs commits)

def c6InitEntry : DataCache := (InitKeys (NewDataCache 5 false) 1 [] []).1

/-- Witness for the amended C6 theorem: monotonicity on a ready entry under a
no-op `AddData`, and the conditional direction on an entry initialised with
no pending cross-shard transactions. -/
theorem c6_witness :
    (NewDataCache 5 true).status = true ∧ c6InitEntry.status = true := by
  constructor
  · exact c6_ready_monotone_and_conditional.1 (NewDataCache 5 true)
      [CacheOp.add 2 []] (NewDataCache 5 true) (by decide) (by decide)
  · exact c6_ready_monotone_and_conditional.2 (NewDataCache 5 false) 1 [] [] []
      c6InitEntry (by decide) (by decide)

/-! ## Reference-shard lock post-processing (`BlockChain.UpdateRefStatus`,
`BlockChain.addNewLocks`) — claim C3 -/

/-- Reference-shard lock state: the global lock table, the shard-to-contract
index (`lockedAddrMap`, values the Go `map[common.Address]bool`), the height
of the latest cross-shard transaction per shard, and the latest accepted
commitment per shard. -/
structure RefState where
  gLocked : AList Addr (AList Key Int)
  lockedAddrMap : AList Nat (AList Addr Bool)
  lastCtx : AList Nat Nat
  lastCommit : AList Nat Commitment
  deriving DecidableEq, Repr

/-- Per-contract body of `BlockChain.addNewLocks`: register the contract
under its shard (value `false`) and lock its keys in the global table; the
per-key logic is byte-for-byte the worker's (`updateCLockAddr`). -/
def addNewLocksContract (st : RefState) (shard : Nat) (ck : CKeys) : RefState :=
  let entry := (lookupA st.lockedAddrMap shard).getD []
  let entry1 := if (lookupA entry ck.addr).isSome then entry else insertA entry ck.addr false
  { st with
    gLocked := insertA st.gLocked ck.addr
      (updateCLockAddr ((lookupA st.gLocked ck.addr).getD []) ck),
    lockedAddrMap := insertA st.lockedAddrMap shard entry1 }

/-- `BlockChain.addNewLocks`: install the global locks and index entries of a
successful cross-shard transaction. -/
def addNewLocks (st : RefState) (allKeys : List (Nat × List CKeys)) : RefState :=
  allKeys.foldl (fun st p =>
    let st1 := if (lookupA st.lockedAddrMap p.1).isSome then st
               else { st with lockedAddrMap := insertA st.lockedAddrMap p.1 [] }
    p.2.foldl (fun st ck => addNewLocksContract st p.1 ck) st1) st

/-- The unlock step of `UpdateRefStatus` for a successful state commit: only
a *present and nonempty* index entry triggers the bulk release
(`if sok && len(lockedAddrs) > 0`). -/
def scUnlock (st : RefState) (shard : Nat) : RefState :=
  match lookupA st.lockedAddrMap shard with
  | some lockedAddrs =>
    if 0 < lockedAddrs.length then
      { st with
        gLocked := lockedAddrs.foldl (fun g p => eraseA g p.1) st.gLocked,
        lockedAddrMap := eraseA st.lockedAddrMap shard }
    else st
  | none => st

/-- `UpdateRefStatus`'s latest-commit bookkeeping (`report >= lcommit.RefNum`;
`lastCommit` is initialised for every shard at startup, hence the default). -/
def scCommitUpdate (st : RefState) (c : Commitment) : RefState :=
  let lcommit := (lookupA st.lastCommit c.shard).getD ⟨c.shard, 0, 0, 0, 0⟩
  if lcommit.refNum ≤ c.refNum then { st with lastCommit := insertA st.lastCommit c.shard c }
  else st

/-- A reference-chain transaction after receipt/log dispatch (`tStatus` is
the combined receipt-status and success-event flag). -/
inductive RefTx where
  | crossShard (ok : Bool) (shards : List Nat) (allKeys : List (Nat × List CKeys))
  | stateCommit (ok : Bool) (c : Commitment)
  | other
  deriving DecidableEq, Repr

/-- One transaction of `BlockChain.UpdateRefStatus` (lock-relevant part):
a successful cross-shard transaction records `lastCtx` and adds locks, a
successful state commit releases the target shard's locks and updates its
latest commitment. -/
def updRefStep (bNum : Nat) (st : RefState) (tx : RefTx) : RefState :=
  match tx with
  | .crossShard ok shards allKeys =>
    if ok then
      addNewLocks { st with lastCtx := shards.foldl (fun m s => insertA m s bNum) st.lastCtx }
        allKeys
    else st
  | .stateCommit ok c =>
    if ok then scCommitUpdate (scUnlock st c.shard) c else st
  | .other => st

/-- `BlockChain.UpdateRefStatus` over a block's transactions. -/
def UpdateRefStatus (bNum : Nat) (st : RefState) (txs : List RefTx) : RefState :=
  txs.foldl (updRefStep bNum) st

/-- Prior state for the first C3 counterexample: shard 2's index entry exists
but is empty (as a cross-shard transaction declaring shard 2 with zero
contracts leaves it). -/
def c3StA : RefState := ⟨[], [(2, [])], [], []⟩

/-- Prior state for the second C3 counterexample: contract 10 is locked on
behalf of shard 2. -/
def c3StB : RefState := ⟨[(10, [(1, -1)])], [(2, [(10, false)])], [], []⟩

/-- Block for the second counterexample: the successful state commit from
shard 2 is followed, in the same block, by a successful cross-shard
transaction locking contract 10 for shard 2 again. -/
def c3BlockB : List RefTx :=
  [.stateCommit true ⟨2, 9, 5, 0, 0⟩, .crossShard true [2] [(2, [⟨10, [1], [1]⟩])]]

/-- C3 counterexample: (a) with an empty index entry for shard 2, processing
a block with a successful state commit from shard 2 leaves the entry in
place (the source requires `len(lockedAddrs) > 0` before deleting); (b) a
successful cross-shard transaction later in the same block re-locks a
contract of shard 2, so after the block a contract recorded under shard 2
does retain a global-lock entry. -/
theorem c3_counterexample :
    lookupA (UpdateRefStatus 7 c3StA [RefTx.stateCommit true ⟨2, 9, 5, 0, 0⟩]).lockedAddrMap 2
      = some [] ∧
    lookupA (UpdateRefStatus 7 c3StB c3BlockB).lockedAddrMap 2 = some [(10, false)] ∧
    lookupA (UpdateRefStatus 7 c3StB c3BlockB).gLocked 10 = some [(1, -1)] := by
  refine ⟨rfl, rfl, rfl⟩

theorem scCommitUpdate_gLocked (st : RefState) (c : Commitment) :
    (scCommitUpdate st c).gLocked = st.gLocked := by
  simp only [scCommitUpdate]
  split <;> rfl

theorem scCommitUpdate_lockedAddrMap (st : RefState) (c : Commitment) :
    (scCommitUpdate st c).lockedAddrMap = st.lockedAddrMap := by
  simp only [scCommitUpdate]
  split <;> rfl

theorem lookupA_foldl_eraseA_none {β : Type} (l : List (Addr × Bool))
    (g : AList Addr β) (a : Addr) (h : lookupA g a = none) :
    lookupA (l.foldl (fun g p => eraseA g p.1) g) a = none := by
  induction l generalizing g with
  | nil => exact h
  | cons q rest ih => exact ih _ (lookupA_eraseA_none q.1 h)

theorem lookupA_foldl_eraseA_mem {β : Type} (l : List (Addr × Bool))
    (g : AList Addr β) (a : Addr) (h : ∃ p ∈ l, p.1 = a) :
    lookupA (l.foldl (fun g p => eraseA g p.1) g) a = none := by
  induction l generalizing g with
  | nil => simp at h
  | cons q rest ih =>
    obtain ⟨p, hp, hpa⟩ := h
    rcases List.mem_cons.mp hp with hq | hrest
    · subst hq
      subst hpa
      exact lookupA_foldl_eraseA_none rest _ p.1 (lookupA_eraseA_self g p.1)
    · exact ih _ ⟨p, hrest, hpa⟩

/-- C3 amended: for every prior content of the lock tables, immediately
after `UpdateRefStatus` processes a successful state commit from shard `s`
whose index entry is *nonempty*, every contract of that entry is gone from
the global lock table and the entry itself is removed.  (An empty entry is
retained, and a later successful cross-shard transaction in the same block
may re-add locks for `s` — see the counterexample.) -/
theorem c3_commit_releases_shard_locks (st : RefState) (bNum : Nat) (c : Commitment)
    (entry : AList Addr Bool)
    (hentry : lookupA st.lockedAddrMap c.shard = some entry) (hne : entry ≠ []) :
    (∀ p ∈ entry,
      lookupA (updRefStep bNum st (RefTx.stateCommit true c)).gLocked p.1 = none) ∧
    lookupA (updRefStep bNum st (RefTx.stateCommit true c)).lockedAddrMap c.shard = none := by
  have hlen : 0 < entry.length := List.length_pos.mpr hne
  have hstep : updRefStep bNum st (RefTx.stateCommit true c)
      = scCommitUpdate (scUnlock st c.shard) c := by
    rfl
  have hunlock : scUnlock st c.shard
      = { st with
          gLocked := entry.foldl (fun g p => eraseA g p.1) st.gLocked,
          lockedAddrMap := eraseA st.lockedAddrMap c.shard } := by
    unfold scUnlock
    rw [hentry]
    simp [hlen]
  constructor
  · intro p hp
    rw [hstep, scCommitUpdate_gLocked, hunlock]
    exact lookupA_foldl_eraseA_mem entry st.gLocked p.1 ⟨p, hp, rfl⟩
  · rw [hstep, scCommitUpdate_lockedAddrMap, hunlock]
    exact lookupA_eraseA_self st.lockedAddrMap c.shard

/-- Witness for the amended C3 theorem, the spec's unlock scenario: from
`GlobalLocks[10] = {1 ↦ -1}` and `shard_index[2] = {10}`, a successful
`StateCommit(shard 2, block 9, ref 5)` empties both. -/
theorem c3_witness :
    lookupA (updRefStep 7 c3StB (RefTx.stateCommit true ⟨2, 9, 5, 0, 0⟩)).gLocked 10 = none ∧
    lookupA (updRefStep 7 c3StB (RefTx.stateCommit true ⟨2, 9, 5, 0, 0⟩)).lockedAddrMap 2
      = none := by
  have h := c3_commit_releases_shard_locks c3StB 7 ⟨2, 9, 5, 0, 0⟩ [(10, false)] rfl
    (by decide)
  exact ⟨h.1 (10, false) (by decide), h.2⟩

/-! ## Block execution error handling (`StateProcessor.Process`) — claim C4 -/

/-- Transaction kind tags (`types.StateCommit` … `types.CrossShardLocal`). -/
def StateCommitT : Nat := 0

def IntraShardT : Nat := 1

def CrossShardT : Nat := 2

def ContractInitT : Nat := 3

def CrossShardLocalT : Nat := 4

/-- A transaction as seen by `Process`'s error dispatch: only its kind
matters here. -/
structure PTx where
  txType : Nat
  deriving DecidableEq, Repr

/-- The per-transaction loop of `StateProcessor.Process`.  `applyTx` stands
for `ApplyTransaction` (EVM execution is an external collaborator): from the
public and private state it returns the mutated states and either an error
or the public receipt with an optional private receipt.  Snapshots are taken
before each application; a failing `CrossShardLocal` transaction is rolled
back to them and skipped, any other failure aborts the block. -/
def processTxs {σ ρ ε : Type} (applyTx : σ → σ → PTx → σ × σ × Except ε (ρ × Option ρ)) :
    List PTx → σ → σ → List ρ → List ρ → Except ε (σ × σ × List ρ × List ρ)
  | [], pub, priv, rs, prs => .ok (pub, priv, rs, prs)
  | tx :: rest, pub, priv, rs, prs =>
    match applyTx pub priv tx with
    | (pub1, priv1, res) =>
      match res with
      | .error e =>
        if tx.txType = CrossShardLocalT then
          processTxs applyTx rest pub priv rs prs
        else
          .error e
      | .ok (r, pr) =>
        processTxs applyTx rest pub1 priv1 (rs ++ [r])
          (prs ++ (match pr with | some p => [p] | none => []))

/-- C4: when applying a transaction fails, a `CrossShardLocal` transaction
is reverted to the pre-transaction snapshots of both states, contributes no
receipt, and execution continues with the next transaction; any other kind
makes `Process` return the error, failing the whole block. -/
theorem c4_crossShardLocal_reverts_others_abort {σ ρ ε : Type}
    (applyTx : σ → σ → PTx → σ × σ × Except ε (ρ × Option ρ))
    (tx : PTx) (rest : List PTx) (pub priv : σ) (pub1 priv1 : σ) (e : ε)
    (rs prs : List ρ)
    (h : applyTx pub priv tx = (pub1, priv1, Except.error e)) :
    (tx.txType = CrossShardLocalT →
      processTxs applyTx (tx :: rest) pub priv rs prs = processTxs applyTx rest pub priv rs prs) ∧
    (tx.txType ≠ CrossShardLocalT →
      processTxs applyTx (tx :: rest) pub priv rs prs = .error e) := by
  constructor
  · intro hcsl
    simp [processTxs, h, hcsl]
  · intro hother
    simp [processTxs, h, hother]

/-- Witness for C4 with a concrete always-failing `applyTx`: the failing
`CrossShardLocal` transaction is skipped with states and receipts intact,
while a failing intra-shard transaction aborts the block with its error. -/
theorem c4_witness :
    processTxs (σ := Nat) (ρ := Nat) (ε := Nat)
      (fun p q _ => (p + 1, q + 1, Except.error 42)) [⟨CrossShardLocalT⟩] 0 0 [] []
      = Except.ok (0, 0, [], []) ∧
    processTxs (σ := Nat) (ρ := Nat) (ε := Nat)
      (fun p q _ => (p + 1, q + 1, Except.error 42)) [⟨IntraShardT⟩] 0 0 [] []
      = Except.error 42 := by
  constructor
  · exact (c4_crossShardLocal_reverts_others_abort
      (fun p q _ => (p + 1, q + 1, Except.error 42)) ⟨CrossShardLocalT⟩ [] 0 0 1 1 42 [] []
      rfl).1 rfl
  · exact (c4_crossShardLocal_reverts_others_abort
      (fun p q _ => (p + 1, q + 1, Except.error 42)) ⟨IntraShardT⟩ [] 0 0 1 1 42 [] []
      rfl).2 (by decide)

/-! ## New reference head handling (`worker.newWorkLoop`) — claim C5 -/

/-- The scan `for curRefNum <= newRefNum { if CtxExist(curRefNum) ... }`:
true iff some height in `[cur, stop]` has a pending cross-shard
transaction. -/
def ctxScan (e : Nat → Bool) (cur stop : Nat) : Bool :=
  if cur ≤ stop then (e cur || ctxScan e (cur + 1) stop) else false
termination_by stop + 1 - cur
decreasing_by omega

/-- Externally visible effects of the `rChainHeadCh` case of
`worker.newWorkLoop`. -/
structure RefHeadEffects where
  reorg : Bool
  loggedReorg : Option (Nat × Nat × Nat × Nat)
  resetPoolTo : Option Nat
  setHeadTo : Option Nat
  slept2s : Bool
  workReq : Option Bool
  deriving DecidableEq, Repr

/-- The `rChainHeadCh` handler of `worker.newWorkLoop`: when the local head
is at or above the committed height, scan `(parentRef, newRef]` for a
pending cross-shard transaction; on a hit, log/rewind only when the head is
strictly above the committed height, then sleep 2 s and submit a reorg work
request. -/
def onRefChainHead (parentNum commitNum parentRef newRefNum now : Nat)
    (ctxExist : Nat → Bool) : RefHeadEffects :=
  if commitNum ≤ parentNum then
    if ctxScan ctxExist (parentRef + 1) newRefNum then
      if commitNum < parentNum then
        { reorg := true, loggedReorg := some (newRefNum, parentNum, commitNum, now),
          resetPoolTo := some commitNum, setHeadTo := some commitNum,
          slept2s := true, workReq := some true }
      else
        { reorg := true, loggedReorg := none, resetPoolTo := none, setHeadTo := none,
          slept2s := true, workReq := some true }
    else
      { reorg := false, loggedReorg := none, resetPoolTo := none, setHeadTo := none,
        slept2s := false, workReq := none }
  else
    { reorg := false, loggedReorg := none, resetPoolTo := none, setHeadTo := none,
      slept2s := false, workReq := none }

theorem ctxScan_iff_aux (e : Nat → Bool) :
    ∀ n cur stop, stop + 1 - cur = n →
      (ctxScan e cur stop = true ↔ ∃ r, cur ≤ r ∧ r ≤ stop ∧ e r = true) := by
  intro n
  induction n with
  | zero =>
    intro cur stop hn
    have hlt : stop < cur := by omega
    rw [ctxScan]
    simp only [if_neg (by omega : ¬cur ≤ stop)]
    constructor
    · intro h
      exact absurd h (by simp)
    · rintro ⟨r, h1, h2, _⟩
      omega
  | succ n ih =>
    intro cur stop hn
    have hle : cur ≤ stop := by omega
    rw [ctxScan]
    simp only [if_pos hle, Bool.or_eq_true]
    constructor
    · rintro (hc | hs)
      · exact ⟨cur, le_refl _, hle, hc⟩
      · obtain ⟨r, h1, h2, h3⟩ := (ih (cur + 1) stop (by omega)).mp hs
        exact ⟨r, by omega, h2, h3⟩
    · rintro ⟨r, h1, h2, h3⟩
      by_cases hr : r = cur
      · subst hr
        exact Or.inl h3
      · exact Or.inr ((ih (cur + 1) stop (by omega)).mpr ⟨r, by omega, h2, h3⟩)

theorem ctxScan_iff (e : Nat → Bool) (cur stop : Nat) :
    ctxScan e cur stop = true ↔ ∃ r, cur ≤ r ∧ r ≤ stop ∧ e r = true :=
  ctxScan_iff_aux e (stop + 1 - cur) cur stop rfl

/-- C5: on a new reference head with the local head at or above the last
self-commit, if some height in `(parentRef, newRef]` has a pending
cross-shard transaction and the head is strictly above the committed height,
the worker logs `(newRefNum, localNum, commitNum, now)` to the reorg log,
rewinds the transaction pool and the chain to the committed height, sleeps
2 s and submits a reorg-marked work request; and with no such transaction in
the scanned range, no rewind happens. -/
theorem c5_reorg_on_new_ref_head (parentNum commitNum parentRef newRefNum now : Nat)
    (ctxExist : Nat → Bool) :
    (commitNum ≤ parentNum → commitNum < parentNum →
      (∃ r, parentRef < r ∧ r ≤ newRefNum ∧ ctxExist r = true) →
      onRefChainHead parentNum commitNum parentRef newRefNum now ctxExist
        = { reorg := true, loggedReorg := some (newRefNum, parentNum, commitNum, now),
            resetPoolTo := some commitNum, setHeadTo := some commitNum,
            slept2s := true, workReq := some true }) ∧
    ((∀ r, parentRef < r → r ≤ newRefNum → ctxExist r = false) →
      (onRefChainHead parentNum commitNum parentRef newRefNum now ctxExist).resetPoolTo = none ∧
      (onRefChainHead parentNum commitNum parentRef newRefNum now ctxExist).setHeadTo = none) := by
  constructor
  · intro hle hlt hex
    have hscan : ctxScan ctxExist (parentRef + 1) newRefNum = true := by
      rw [ctxScan_iff]
      obtain ⟨r, h1, h2, h3⟩ := hex
      exact ⟨r, by omega, h2, h3⟩
    unfold onRefChainHead
    rw [if_pos hle, hscan, if_pos rfl, if_pos hlt]
  · intro hnone
    have hscan : ctxScan ctxExist (parentRef + 1) newRefNum = false := by
      rw [Bool.eq_false_iff]
      intro hx
      obtain ⟨r, h1, h2, h3⟩ := (ctxScan_iff ctxExist (parentRef + 1) newRefNum).mp hx
      rw [hnone r (by omega) h2] at h3
      exact Bool.false_ne_true h3
    unfold onRefChainHead
    by_cases hle : commitNum ≤ parentNum
    · rw [if_pos hle, hscan]
      exact ⟨rfl, rfl⟩
    · rw [if_neg hle]
      exact ⟨rfl, rfl⟩

/-- Witness for C5, the spec's reorg-trigger scenario: local head 10 built on
reference height 4, committed height 6, reference head 7, a cross-shard
transaction at reference height 6; the worker logs `reorg 7 10 6 ts`,
rewinds to 6 and submits a reorg work request — and with no cross-shard
transaction anywhere, no rewind happens. -/
theorem c5_witness :
    onRefChainHead 10 6 4 7 1700000000 (fun r => decide (r = 6))
      = { reorg := true, loggedReorg := some (7, 10, 6, 1700000000),
          resetPoolTo := some 6, setHeadTo := some 6,
          slept2s := true, workReq := some true } ∧
    (onRefChainHead 10 6 4 7 1700000000 (fun _ => false)).resetPoolTo = none := by
  constructor
  · exact (c5_reorg_on_new_ref_head 10 6 4 7 1700000000 (fun r => decide (r = 6))).1
      (by omega) (by omega) ⟨6, by omega, by omega, by decide⟩
  · exact ((c5_reorg_on_new_ref_head 10 6 4 7 1700000000 (fun _ => false)).2
      (fun r _ _ => rfl)).1

/-! ## State-commit payload decoding (`types.DecodeStateCommit`) — claim C8 -/

/-- `binary.BigEndian.Uint64` over an 8-byte slice. -/
def beUint64 (bs : List Nat) : Nat :=
  bs.foldl (fun acc b => acc * 256 + b % 256) 0

/-- Go slice `data[a:b]` (claims instantiate only in-range slices). -/
def sliceBytes (data : List Nat) (a b : Nat) : List Nat :=
  (data.take b).drop a

/-- The `binary.BigEndian.Uint64(data[index+24 : index+32])` idiom. -/
def word64At (data : List Nat) (i : Nat) : Nat :=
  beUint64 (sliceBytes data (i + 24) (i + 32))

/-- `common.BytesToHash` / `Hash.SetBytes`: crop from the left to the last
32 bytes, otherwise left-pad with zeros. -/
def bytesToHash (b : List Nat) : List Nat :=
  if b.length ≤ 32 then List.replicate (32 - b.length) 0 ++ b
  else b.drop (b.length - 32)

/-- `types.DecodeStateCommit` as defined in `core/types/transaction.go`:
strip the 4-byte selector and return FOUR values — shard, committed block
number, reported reference number, and `BytesToHash` of *all* remaining
bytes.  (The repository's callers in `core/blockchain.go` destructure five
values from this function.) -/
def DecodeStateCommit (txData : List Nat) : Nat × Nat × Nat × List Nat :=
  let data := txData.drop 4
  (word64At data 0, word64At data 32, word64At data 64, bytesToHash (data.drop 96))

/-- A number as 8 big-endian bytes. -/
def be8 (n : Nat) : List Nat :=
  [n / 256 ^ 7, n / 256 ^ 6, n / 256 ^ 5, n / 256 ^ 4,
   n / 256 ^ 3, n / 256 ^ 2, n / 256, n].map (· % 256)

/-- A small number as a 32-byte big-endian ABI word. -/
def word32 (n : Nat) : List Nat := List.replicate 24 0 ++ be8 n

/-- A five-word state-commit payload behind a 4-byte selector. -/
def scPayload (shard commit report rootByte hashByte : Nat) : List Nat :=
  [0, 0, 0, 0] ++ word32 shard ++ word32 commit ++ word32 report ++
    List.replicate 32 rootByte ++ List.replicate 32 hashByte

/-- C8 (code bug): on a well-formed five-word payload
(shard 2, block 9, ref 5, state root `0x03…03`, block hash `0x07…07`),
`DecodeStateCommit` returns only four values, and the single hash it returns
is the trailing 32 bytes — the block hash — not the state root, which is
dropped entirely. -/
theorem c8_decode_truncated :
    DecodeStateCommit (scPayload 2 9 5 3 7) = (2, 9, 5, List.replicate 32 7) ∧
    List.replicate 32 7 ≠ List.replicate 32 3 := by
  exact ⟨rfl, by decide⟩

/-! ## State-commit filtering (`worker.NewValidStateCommitments`) — claim C2

The worker file destructures `types.DecodeStateCommit` into five values and
uses the second (committed block number) and third (reported reference
number); the embedded four-value decode above yields the identical words at
those positions. -/

/-- Worker state read by `NewValidStateCommitments`: the commit-address to
shard map (Go zero value `0` for unknown addresses), and the per-shard
latest accepted commitment and latest cross-shard-transaction height (both
initialised for every shard at chain construction). -/
structure WEnv where
  addrShardMap : AList Addr Nat
  lastCommit : Nat → Commitment
  lastCtx : Nat → Nat

/-- Accumulator of the per-address scan: the best transaction so far (if
any) with the running `maxRef`/`maxCom`. -/
abbrev SelAcc := Option (List Nat) × Nat × Nat

/-- One candidate of `NewValidStateCommitments`'s inner loop: accept only if
the reported reference number is at least `lastCtx`, and strictly improves
`(maxRef, maxCom)` lexicographically. -/
def selectStep (lastCtx : Nat) (acc : SelAcc) (tx : List Nat) : SelAcc :=
  let commit := (DecodeStateCommit tx).2.1
  let report := (DecodeStateCommit tx).2.2.1
  if lastCtx ≤ report then
    if acc.2.1 < report then (some tx, report, commit)
    else if report = acc.2.1 then
      if acc.2.2 < commit then (some tx, acc.2.1, commit) else acc
    else acc
  else acc

/-- The per-address body of `NewValidStateCommitments`: scan the address's
transactions starting from the shard's last accepted commitment. -/
def selectCommit (env : WEnv) (addr : Addr) (txs : List (List Nat)) : Option (List Nat) :=
  let shard := lookupD env.addrShardMap addr 0
  let lastCommit := env.lastCommit shard
  let lastCtx := env.lastCtx shard
  (txs.foldl (selectStep lastCtx) (none, lastCommit.refNum, lastCommit.blockNum)).1

/-- One address of `NewValidStateCommitments`'s outer loop: an accepted
candidate becomes the address's singleton list (`newCommits[addr] =
Transactions{maxTx}`).  The accompanying `unlockKeys` call touches only the
worker's `cUnlocked` scratch map. -/
def nvscStep (env : WEnv) (out : AList Addr (List (List Nat)))
    (p : Addr × List (List Nat)) : AList Addr (List (List Nat)) :=
  match selectCommit env p.1 p.2 with
  | some t => insertA out p.1 [t]
  | none => out

/-- `worker.NewValidStateCommitments`. -/
def NewValidStateCommitments (env : WEnv) (stateTxs : AList Addr (List (List Nat))) :
    AList Addr (List (List Nat)) :=
  stateTxs.foldl (nvscStep env) []

/-- Strict lexicographic order on `(ref_num, block_num)` pairs. -/
def lexLt (p q : Nat × Nat) : Prop :=
  p.1 < q.1 ∨ (p.1 = q.1 ∧ p.2 < q.2)

/-- Invariant of the candidate scan: an accepted transaction decodes to the
running `(maxRef, maxCom)`, reports at least `lastCtx`, and strictly
improves the shard's last accepted commitment. -/
def SelInv (l r0 c0 : Nat) : SelAcc → Prop
  | (none, mr, mc) => mr = r0 ∧ mc = c0
  | (some t, mr, mc) =>
      (DecodeStateCommit t).2.2.1 = mr ∧ (DecodeStateCommit t).2.1 = mc ∧
      l ≤ mr ∧ lexLt (r0, c0) (mr, mc)

theorem selectStep_inv (l r0 c0 : Nat) (acc : SelAcc) (tx : List Nat)
    (h : SelInv l r0 c0 acc) : SelInv l r0 c0 (selectStep l acc tx) := by
  obtain ⟨mt, mr, mc⟩ := acc
  simp only [selectStep]
  by_cases h1 : l ≤ (DecodeStateCommit tx).2.2.1
  · rw [if_pos h1]
    by_cases h2 : mr < (DecodeStateCommit tx).2.2.1
    · rw [if_pos h2]
      cases mt with
      | none =>
        obtain ⟨e1, e2⟩ := h
        exact ⟨rfl, rfl, h1, Or.inl (by omega)⟩
      | some t0 =>
        obtain ⟨e1, e2, e3, e4⟩ := h
        refine ⟨rfl, rfl, h1, ?_⟩
        rcases e4 with h4 | ⟨h4a, h4b⟩
        · exact Or.inl (by omega)
        · exact Or.inl (by omega)
    · rw [if_neg h2]
      by_cases h3 : (DecodeStateCommit tx).2.2.1 = mr
      · rw [if_pos h3]
        by_cases h4 : mc < (DecodeStateCommit tx).2.1
        · rw [if_pos h4]
          cases mt with
          | none =>
            obtain ⟨e1, e2⟩ := h
            exact ⟨h3, rfl, by omega, Or.inr ⟨by omega, by omega⟩⟩
          | some t0 =>
            obtain ⟨e1, e2, e3, e4⟩ := h
            refine ⟨h3, rfl, e3, ?_⟩
            rcases e4 with h5 | ⟨h5a, h5b⟩
            · exact Or.inl h5
            · exact Or.inr ⟨h5a, by omega⟩
        · rw [if_neg h4]
          exact h
      · rw [if_neg h3]
        exact h
  · rw [if_neg h1]
    exact h

theorem selectFold_inv (l r0 c0 : Nat) (txs : List (List Nat)) (acc : SelAcc)
    (h : SelInv l r0 c0 acc) : SelInv l r0 c0 (txs.foldl (selectStep l) acc) := by
  induction txs generalizing acc with
  | nil => exact h
  | cons tx rest ih => exact ih _ (selectStep_inv l r0 c0 acc tx h)

theorem selectCommit_spec (env : WEnv) (addr : Addr) (txs : List (List Nat))
    (t : List Nat) (h : selectCommit env addr txs = some t) :
    env.lastCtx (lookupD env.addrShardMap addr 0) ≤ (DecodeStateCommit t).2.2.1 ∧
    lexLt ((env.lastCommit (lookupD env.addrShardMap addr 0)).refNum,
           (env.lastCommit (lookupD env.addrShardMap addr 0)).blockNum)
      ((DecodeStateCommit t).2.2.1, (DecodeStateCommit t).2.1) := by
  simp only [selectCommit] at h
  have hI := selectFold_inv (env.lastCtx (lookupD env.addrShardMap addr 0))
    ((env.lastCommit (lookupD env.addrShardMap addr 0)).refNum)
    ((env.lastCommit (lookupD env.addrShardMap addr 0)).blockNum) txs
    (none, (env.lastCommit (lookupD env.addrShardMap addr 0)).refNum,
      (env.lastCommit (lookupD env.addrShardMap addr 0)).blockNum)
    (by simp [SelInv])
  rcases hacc : txs.foldl (selectStep (env.lastCtx (lookupD env.addrShardMap addr 0)))
      (none, (env.lastCommit (lookupD env.addrShardMap addr 0)).refNum,
        (env.lastCommit (lookupD env.addrShardMap addr 0)).blockNum) with ⟨mt, mr, mc⟩
  rw [hacc] at hI h
  simp only at h
  subst h
  obtain ⟨e1, e2, e3, e4⟩ := hI
  rw [e1, e2]
  exact ⟨e3, e4⟩

theorem mem_insertA {α β : Type} [DecidableEq α] {m : AList α β} {a x : α} {b y : β}
    (h : (x, y) ∈ insertA m a b) : (x, y) ∈ m ∨ (x = a ∧ y = b) := by
  induction m with
  | nil =>
    simp [insertA] at h
    exact Or.inr h
  | cons hd tl ih =>
    by_cases hx : hd.1 = a
    · rw [insertA, if_pos hx] at h
      rcases List.mem_cons.mp h with h1 | h2
      · right
        exact ⟨congrArg Prod.fst h1, congrArg Prod.snd h1⟩
      · left
        exact List.mem_cons_of_mem _ h2
    · rw [insertA, if_neg hx] at h
      rcases List.mem_cons.mp h with h1 | h2
      · left
        exact h1 ▸ List.mem_cons_self _ _
      · rcases ih h2 with h3 | h3
        · exact Or.inl (List.mem_cons_of_mem _ h3)
        · exact Or.inr h3

theorem mem_keys_insertA {α β : Type} [DecidableEq α] {m : AList α β} {a c : α} {b : β}
    (h : c ∈ (insertA m a b).map Prod.fst) : c ∈ m.map Prod.fst ∨ c = a := by
  induction m with
  | nil =>
    simp [insertA] at h
    exact Or.inr h
  | cons hd tl ih =>
    by_cases hx : hd.1 = a
    · rw [insertA, if_pos hx] at h
      simp only [List.map_cons, List.mem_cons] at h
      rcases h with h1 | h2
      · exact Or.inr h1
      · exact Or.inl (by simp [h2])
    · rw [insertA, if_neg hx] at h
      simp only [List.map_cons, List.mem_cons] at h
      rcases h with h1 | h2
      · exact Or.inl (by simp [h1])
      · rcases ih h2 with h3 | h3
        · exact Or.inl (by simp [h3])
        · exact Or.inr h3

/-- Key uniqueness of an association list, the standing Go-map invariant. -/
def keysNodup {α β : Type} (m : AList α β) : Prop := (m.map Prod.fst).Nodup

theorem keysNodup_insertA {α β : Type} [DecidableEq α] {m : AList α β} (a : α) (b : β)
    (h : keysNodup m) : keysNodup (insertA m a b) := by
  induction m with
  | nil => simp [insertA, keysNodup]
  | cons hd tl ih =>
    simp only [keysNodup, List.map_cons, List.nodup_cons] at h
    by_cases hx : hd.1 = a
    · rw [insertA, if_pos hx]
      simp only [keysNodup, List.map_cons, List.nodup_cons]
      exact ⟨hx ▸ h.1, h.2⟩
    · rw [insertA, if_neg hx]
      simp only [keysNodup, List.map_cons, List.nodup_cons]
      refine ⟨?_, ih h.2⟩
      intro hmem
      rcases mem_keys_insertA hmem with h1 | h1
      · exact h.1 h1
      · exact hx h1

theorem keysNodup_unique {α β : Type} [DecidableEq α] {m : AList α β} {a : α} {l1 l2 : β}
    (h : keysNodup m) (h1 : (a, l1) ∈ m) (h2 : (a, l2) ∈ m) : l1 = l2 := by
  induction m with
  | nil => simp at h1
  | cons hd tl ih =>
    simp only [keysNodup, List.map_cons, List.nodup_cons] at h
    rcases List.mem_cons.mp h1 with e1 | e1 <;> rcases List.mem_cons.mp h2 with e2 | e2
    · rw [← e1] at e2
      exact (congrArg Prod.snd e2).symm
    · exact absurd (by simpa using List.mem_map_of_mem Prod.fst e2) (by
        rw [← e1] at h
        simpa using h.1)
    · exact absurd (by simpa using List.mem_map_of_mem Prod.fst e1) (by
        rw [← e2] at h
        simpa using h.1)
    · exact ih h.2 e1 e2

theorem nvsc_foldl_keysNodup (env : WEnv) (input : List (Addr × List (List Nat)))
    (acc : AList Addr (List (List Nat))) (h : keysNodup acc) :
    keysNodup (input.foldl (nvscStep env) acc) := by
  induction input generalizing acc with
  | nil => exact h
  | cons p rest ih =>
    refine ih _ ?_
    unfold nvscStep
    split
    · exact keysNodup_insertA _ _ h
    · exact h

theorem nvsc_foldl_mem (env : WEnv) (input : List (Addr × List (List Nat)))
    (acc : AList Addr (List (List Nat))) (a : Addr) (l : List (List Nat))
    (h : (a, l) ∈ input.foldl (nvscStep env) acc) :
    (a, l) ∈ acc ∨
      ∃ txs0 t, (a, txs0) ∈ input ∧ selectCommit env a txs0 = some t ∧ l = [t] := by
  induction input generalizing acc with
  | nil => exact Or.inl h
  | cons p rest ih =>
    rcases ih (nvscStep env acc p) h with h1 | h1
    · unfold nvscStep at h1
      rcases hsel : selectCommit env p.1 p.2 with _ | t
      · rw [hsel] at h1
        exact Or.inl h1
      · rw [hsel] at h1
        rcases mem_insertA h1 with h2 | ⟨h2a, h2b⟩
        · exact Or.inl h2
        · subst h2a
          exact Or.inr ⟨p.2, t, List.mem_cons_self _ _, hsel, h2b⟩
    · obtain ⟨txs0, t, hin, hsel, hl⟩ := h1
      exact Or.inr ⟨txs0, t, List.mem_cons_of_mem _ hin, hsel, hl⟩

/-- C2: for every map of pending state commits with one commit address per
shard (the worker builds `addrShardMap` from the per-shard commit-address
table), `NewValidStateCommitments` accepts at most one transaction per shard
(each accepted address carries a singleton, and two accepted entries for the
same shard coincide); an accepted candidate never reports a reference number
below `lastCtx` of its shard; and it strictly increases `(ref_num,
block_num)` lexicographically over the shard's last accepted commitment. -/
theorem c2_commit_filter_sound (env : WEnv) (stateTxs : AList Addr (List (List Nat)))
    (hinj : ∀ a1 a2 l1 l2, (a1, l1) ∈ stateTxs → (a2, l2) ∈ stateTxs →
      lookupD env.addrShardMap a1 0 = lookupD env.addrShardMap a2 0 → a1 = a2) :
    (∀ a l, (a, l) ∈ NewValidStateCommitments env stateTxs → ∃ t, l = [t]) ∧
    (∀ a1 l1 a2 l2, (a1, l1) ∈ NewValidStateCommitments env stateTxs →
      (a2, l2) ∈ NewValidStateCommitments env stateTxs →
      lookupD env.addrShardMap a1 0 = lookupD env.addrShardMap a2 0 →
      a1 = a2 ∧ l1 = l2) ∧
    (∀ a l t, (a, l) ∈ NewValidStateCommitments env stateTxs → t ∈ l →
      env.lastCtx (lookupD env.addrShardMap a 0) ≤ (DecodeStateCommit t).2.2.1 ∧
      lexLt ((env.lastCommit (lookupD env.addrShardMap a 0)).refNum,
             (env.lastCommit (lookupD env.addrShardMap a 0)).blockNum)
        ((DecodeStateCommit t).2.2.1, (DecodeStateCommit t).2.1)) := by
  refine ⟨?_, ?_, ?_⟩
  · intro a l hmem
    rcases nvsc_foldl_mem env stateTxs [] a l hmem with h | ⟨txs0, t, _, _, hl⟩
    · simp at h
    · exact ⟨t, hl⟩
  · intro a1 l1 a2 l2 h1 h2 hsh
    rcases nvsc_foldl_mem env stateTxs [] a1 l1 h1 with h | ⟨txsA, tA, hinA, _, _⟩
    · simp at h
    rcases nvsc_foldl_mem env stateTxs [] a2 l2 h2 with h | ⟨txsB, tB, hinB, _, _⟩
    · simp at h
    have ha : a1 = a2 := hinj a1 a2 txsA txsB hinA hinB hsh
    subst ha
    exact ⟨rfl, keysNodup_unique (nvsc_foldl_keysNodup env stateTxs [] (by simp [keysNodup]))
      h1 h2⟩
  · intro a l t hmem htl
    rcases nvsc_foldl_mem env stateTxs [] a l hmem with h | ⟨txs0, t0, _, hsel, hl⟩
    · simp at h
    subst hl
    have ht : t = t0 := by simpa using htl
    subst ht
    exact selectCommit_spec env a txs0 t hsel

/-- Environment for the C2 witness, the spec's monotone-filter scenario:
shard 2's commit address is 77, its last accepted commitment is
`(ref 3, block 5)` and its latest cross-shard transaction is at reference
height 4. -/
def c2Env : WEnv :=
  { addrShardMap := [(77, 2)],
    lastCommit := fun s => if s = 2 then ⟨2, 5, 3, 0, 0⟩ else ⟨s, 0, 0, 0, 0⟩,
    lastCtx := fun s => if s = 2 then 4 else 0 }

/-- Candidate commit `C1 = (ref 4, block 6)`. -/
def c2TxA : List Nat := scPayload 2 6 4 0 0

/-- Candidate commit `C2 = (ref 5, block 5)`. -/
def c2TxB : List Nat := scPayload 2 5 5 0 0

/-- Witness for C2 on the spec's scenario 5: of the two candidates only
`C2 = (ref 5, block 5)` survives, and the theorem's guarantees hold for it
(it reports at least `lastCtx = 4` and strictly improves `(3, 5)`). -/
theorem c2_witness :
    NewValidStateCommitments c2Env [(77, [c2TxA, c2TxB])] = [(77, [c2TxB])] ∧
    (4 ≤ (DecodeStateCommit c2TxB).2.2.1 ∧
      lexLt (3, 5) ((DecodeStateCommit c2TxB).2.2.1, (DecodeStateCommit c2TxB).2.1)) := by
  have hout : NewValidStateCommitments c2Env [(77, [c2TxA, c2TxB])] = [(77, [c2TxB])] := rfl
  have hinj : ∀ a1 a2 (l1 l2 : List (List Nat)),
      (a1, l1) ∈ ([(77, [c2TxA, c2TxB])] : AList Addr (List (List Nat))) →
      (a2, l2) ∈ ([(77, [c2TxA, c2TxB])] : AList Addr (List (List Nat))) →
      lookupD c2Env.addrShardMap a1 0 = lookupD c2Env.addrShardMap a2 0 → a1 = a2 := by
    intro a1 a2 l1 l2 h1 h2 _
    have e1 : a1 = 77 := by
      rcases List.mem_cons.mp h1 with h | h
      · exact congrArg Prod.fst h
      · simp at h
    have e2 : a2 = 77 := by
      rcases List.mem_cons.mp h2 with h | h
      · exact congrArg Prod.fst h
      · simp at h
    rw [e1, e2]
  have hmem : (77, [c2TxB]) ∈ NewValidStateCommitments c2Env [(77, [c2TxA, c2TxB])] := by
    rw [hout]
    exact List.mem_cons_self _ _
  have h := (c2_commit_filter_sound c2Env [(77, [c2TxA, c2TxB])] hinj).2.2
    77 [c2TxB] c2TxB hmem (List.mem_cons_self _ _)
  refine ⟨hout, ?_⟩
  simpa [c2Env, lookupD, lookupA] using h

/-! ## Recommit-interval control (`worker.newWorkLoop`) — claim C9

Durations are nanoseconds; the source's float64 arithmetic is modelled
exactly over `ℚ`.  The explicit user path (`resubmitIntervalCh`) sanitises
only from below; the feedback paths go through `recalcRecommit`. -/

/-- `minRecommitInterval` = 1 s in nanoseconds. -/
def minRecommitNs : ℚ := 1000000000

/-- `maxRecommitInterval` = 15 s in nanoseconds. -/
def maxRecommitNs : ℚ := 15000000000

/-- `intervalAdjustRatio` = 0.1. -/
def adjustRatioC : ℚ := 1 / 10

/-- `intervalAdjustBias` = 200 ms in nanoseconds. -/
def adjustBiasNs : ℚ := 200000000

/-- `recalcRecommit`: on upward feedback move toward `target + bias`, capped
at 15 s; on downward feedback move toward `target - bias`, floored at the
user's `minRecommit`. -/
def recalcRecommit (minRecommit prev target : ℚ) (inc : Bool) : ℚ :=
  match inc with
  | true =>
    let next := prev * (1 - adjustRatioC) + adjustRatioC * (target + adjustBiasNs)
    if maxRecommitNs < next then maxRecommitNs else next
  | false =>
    let next := prev * (1 - adjustRatioC) + adjustRatioC * (target - adjustBiasNs)
    if next < minRecommit then minRecommit else next

/-- The `resubmitIntervalCh` case: an explicit user interval is raised to
1 s when below, and stored as both `minRecommit` and `recommit` — with no
upper clamp. -/
def setUserRecommit (interval : ℚ) : ℚ × ℚ :=
  let i := if interval < minRecommitNs then minRecommitNs else interval
  (i, i)

/-- The `resubmitAdjustCh` case with `inc = true`: the target is
`recommit / ratio` (the sender clamps `ratio` into `[0.1, 1]`). -/
def adjustRecommitInc (recommit minRecommit ratio : ℚ) : ℚ :=
  recalcRecommit minRecommit recommit (recommit / ratio) true

/-- The `resubmitAdjustCh` case with `inc = false`: the target is the user's
`minRecommit`. -/
def adjustRecommitDec (recommit minRecommit : ℚ) : ℚ :=
  recalcRecommit minRecommit recommit minRecommit false

/-- C9 counterexample: a user-supplied 16 s interval is stored as 16 s —
the explicit-set path has no upper clamp, so the resulting recommit interval
exceeds 15 s, refuting the claimed `[1 s, 15 s]` invariant on every mutating
path. -/
theorem c9_counterexample :
    (setUserRecommit 16000000000).2 = 16000000000 ∧
    maxRecommitNs < 16000000000 := by
  constructor
  · norm_num [setUserRecommit, minRecommitNs]
  · norm_num [maxRecommitNs]

/-- C9 amended: the explicit user set enforces only the 1 s lower bound (an
interval above 15 s is stored unchanged); both feedback paths do keep the
interval inside `[1 s, 15 s]` — upward feedback whenever the previous
interval is at least 1 s and the (sender-clamped) ratio lies in `[0.1, 1]`,
downward feedback whenever the previous interval is at most 15 s and
`minRecommit` lies in `[1 s, 15 s]`. -/
theorem c9_user_unclamped_feedback_bounded :
    (∀ interval : ℚ, minRecommitNs ≤ (setUserRecommit interval).2) ∧
    (∀ recommit minRecommit ratio : ℚ,
      minRecommitNs ≤ recommit → adjustRatioC ≤ ratio → ratio ≤ 1 →
      minRecommitNs ≤ adjustRecommitInc recommit minRecommit ratio ∧
      adjustRecommitInc recommit minRecommit ratio ≤ maxRecommitNs) ∧
    (∀ recommit minRecommit : ℚ,
      minRecommitNs ≤ minRecommit → minRecommit ≤ maxRecommitNs →
      recommit ≤ maxRecommitNs →
      minRecommitNs ≤ adjustRecommitDec recommit minRecommit ∧
      adjustRecommitDec recommit minRecommit ≤ maxRecommitNs) := by
  refine ⟨?_, ?_, ?_⟩
  · intro interval
    unfold setUserRecommit
    by_cases h : interval < minRecommitNs
    · simp [h]
    · simp [h]
      linarith [not_lt.mp h]
  · intro r mr ratio hr hlo hhi
    have hrpos : (0 : ℚ) < ratio := by
      have : (0 : ℚ) < adjustRatioC := by norm_num [adjustRatioC]
      linarith
    have hrnn : (0 : ℚ) ≤ r := by
      have : (0 : ℚ) < minRecommitNs := by norm_num [minRecommitNs]
      linarith
    have hdiv : r ≤ r / ratio := by
      rw [le_div_iff₀ hrpos]
      nlinarith
    unfold adjustRecommitInc recalcRecommit
    simp only
    have hnext : r ≤ r * (1 - adjustRatioC) + adjustRatioC * (r / ratio + adjustBiasNs) := by
      have hb : (0 : ℚ) ≤ adjustBiasNs := by norm_num [adjustBiasNs]
      have ha : (0 : ℚ) < adjustRatioC := by norm_num [adjustRatioC]
      nlinarith
    by_cases hcap : maxRecommitNs <
        r * (1 - adjustRatioC) + adjustRatioC * (r / ratio + adjustBiasNs)
    · rw [if_pos hcap]
      constructor
      · norm_num [minRecommitNs, maxRecommitNs]
      · exact le_refl maxRecommitNs
    · rw [if_neg hcap]
      exact ⟨le_trans hr hnext, not_lt.mp hcap⟩
  · intro r mr h1 h2 h3
    unfold adjustRecommitDec recalcRecommit
    simp only
    by_cases hfl : r * (1 - adjustRatioC) + adjustRatioC * (mr - adjustBiasNs) < mr
    · rw [if_pos hfl]
      exact ⟨h1, h2⟩
    · rw [if_neg hfl]
      constructor
      · linarith [not_lt.mp hfl]
      · have hb : (0 : ℚ) ≤ adjustBiasNs := by norm_num [adjustBiasNs]
        have ha : (0 : ℚ) < adjustRatioC := by norm_num [adjustRatioC]
        have ha1 : adjustRatioC < 1 := by norm_num [adjustRatioC]
        nlinarith

/-- Witness for the amended C9 theorem at concrete inputs: a 0.5 s user set
lands at 1 s; upward feedback from 3 s with ratio 1/2 stays in
`[1 s, 15 s]`; downward feedback from 3 s toward a 1 s minimum stays in
`[1 s, 15 s]`. -/
theorem c9_witness :
    minRecommitNs ≤ (setUserRecommit 500000000).2 ∧
    (minRecommitNs ≤ adjustRecommitInc 3000000000 1000000000 (1 / 2) ∧
      adjustRecommitInc 3000000000 1000000000 (1 / 2) ≤ maxRecommitNs) ∧
    (minRecommitNs ≤ adjustRecommitDec 3000000000 1000000000 ∧
      adjustRecommitDec 3000000000 1000000000 ≤ maxRecommitNs) := by
  refine ⟨c9_user_unclamped_feedback_bounded.1 500000000, ?_, ?_⟩
  · exact c9_user_unclamped_feedback_bounded.2.1 3000000000 1000000000 (1 / 2)
      (by norm_num [minRecommitNs]) (by norm_num [adjustRatioC]) (by norm_num)
  · exact c9_user_unclamped_feedback_bounded.2.2 3000000000 1000000000
      (by norm_num [minRecommitNs]) (by norm_num [minRecommitNs, maxRecommitNs])
      (by norm_num [maxRecommitNs])

end Quorum
